import Mathlib

/-!
Verification of the gitui asynchronous git layer against its specification.

The Rust sources embedded here are:
* `asyncgit/src/sync/tags.rs`   — `get_tags` and the `Tags` map,
* `asyncgit/src/sync/stash.rs`  — `get_stashes`, `stash_save`, `stash_drop`,
  `stash_pop`, `stash_apply`, `get_stash_index`,
* `asyncgit/src/sync/status.rs` — `get_status`, `is_workdir_clean`,
* `src/popups/help.rs`          — `HelpPopup::move_selection`,
and, modelled from the specification because the scheduler sources are not
part of this snapshot, the generation-stamped single-flight scheduler.

Machine integers: `u16` arithmetic is carried out on `Nat` with explicit
saturation at `65535`; object ids (20-byte hashes, totally ordered by byte
value) are embedded as `Nat`, whose order agrees with byte-value order of
big-endian fixed-width byte strings.
-/

namespace Gitui

/-- Object id (libgit2 `Oid`): fixed-width content hash, totally ordered by
byte value; embedded as `Nat` (big-endian value of the 20 bytes). -/
abbrev Oid := Nat

/-- Rust `CommitId` (asyncgit): a wrapper around an `Oid`. -/
structure CommitId where
  oid : Oid
deriving DecidableEq, Repr

/-- Rust `CommitId::new`. -/
def CommitId.new (id : Oid) : CommitId := ⟨id⟩

/-- Rust `CommitId::get_oid`. -/
def CommitId.get_oid (c : CommitId) : Oid := c.oid

/-- Rust `asyncgit::error::Error`, restricted to the variants reached by the
embedded functions: `Error::Generic(String)` and errors converted from
`git2::Error`. -/
inductive Error where
  | generic : String → Error
  | git : String → Error
deriving DecidableEq, Repr

/-- Rust `asyncgit::error::Result`. -/
abbrev EResult (α : Type) := Except Error α

/-! ## tags.rs -/

/-- Rust `Tag` (tags.rs): tag name plus optional annotation message. -/
structure Tag where
  name : String
  annotation : Option String
deriving DecidableEq, Repr

/-- Rust `CommitTags = Vec<Tag>`. -/
abbrev CommitTags := List Tag

/-- Rust `Tags = BTreeMap<CommitId, CommitTags>`: embedded as an association
list whose keys are kept in strictly increasing `Oid` order, which is exactly
the iteration order a `BTreeMap` keyed by `CommitId` provides. -/
abbrev Tags := List (CommitId × CommitTags)

/-- The `adder` closure of `get_tags` combined with `BTreeMap` insertion:
push `value` onto the entry at `key` if present, otherwise insert the
singleton vector at `key`, keeping keys sorted by `Oid`. -/
def tagsAdd (res : Tags) (key : CommitId) (value : Tag) : Tags :=
  match res with
  | [] => [(key, [value])]
  | (k, vs) :: rest =>
    if key.oid = k.oid then (k, vs ++ [value]) :: rest
    else if key.oid < k.oid then (key, [value]) :: (k, vs) :: rest
    else (k, vs) :: tagsAdd rest key value

/-- One reference enumerated by `git2::Repository::tag_foreach`. The raw ref
name is a byte string `refs/tags/...`; `name_utf8` is the result of
`String::from_utf8(name[10..])` — `none` when the bytes after the
`refs/tags/` prefix are not valid UTF-8. -/
structure TagRef where
  id : Oid
  name_utf8 : Option String

/-- The repository as seen by `get_tags` (libgit2 is an external collaborator;
its queries are fields). `find_tag_target_commit id` is the result of
`repo.find_tag(id).and_then(|tag| tag.target()).and_then(|t| t.peel_to_commit())`
(`none` on error), `find_commit_ok id` tells whether `repo.find_commit(id)`
succeeds, and `tag_message_of id` is the result of the annotation chain
`find_tag(id).ok().and_then(message_bytes)` filtered to non-empty messages and
decoded by `bytes2string`. -/
structure TagRepo where
  tag_refs : List TagRef
  find_tag_target_commit : Oid → Option Oid
  find_commit_ok : Oid → Bool
  tag_message_of : Oid → Option String

/-- The body of the `tag_foreach` callback in `get_tags`, folded over the
enumerated refs. A ref whose name fails UTF-8 decoding makes the callback
return `false`, which aborts `tag_foreach` with an error. -/
def tagForeachFold (repo : TagRepo) : List TagRef → Tags → EResult Tags
  | [], res => .ok res
  | tr :: rest, res =>
    match tr.name_utf8 with
    | some name =>
      let commit : Option CommitId :=
        match repo.find_tag_target_commit tr.id with
        | some cid => some (CommitId.new cid)
        | none =>
          if repo.find_commit_ok tr.id then some (CommitId.new tr.id)
          else none
      match commit with
      | some c =>
        tagForeachFold repo rest (tagsAdd res c ⟨name, repo.tag_message_of tr.id⟩)
      | none => tagForeachFold repo rest res
    | none => .error (.git "tag_foreach callback aborted")

/-- Rust `get_tags` (tags.rs): fills a fresh `Tags` map by iterating all tag
refs of the repository. -/
def get_tags (repo : TagRepo) : EResult Tags :=
  tagForeachFold repo repo.tag_refs []

/-- Strict ascending order of the keys of a `Tags` value. -/
def TagsSortedKeys (t : Tags) : Prop :=
  List.Pairwise (fun a b => a.1.oid < b.1.oid) t

theorem tagsAdd_keys (res : Tags) (key : CommitId) (value : Tag) :
    ∀ p ∈ tagsAdd res key value, p.1 = key ∨ p.1 ∈ res.map Prod.fst := by
  induction res with
  | nil =>
    intro p hp
    simp only [tagsAdd, List.mem_singleton] at hp
    left
    rw [hp]
  | cons hd tl ih =>
    intro p hp
    obtain ⟨k, vs⟩ := hd
    simp only [tagsAdd] at hp
    by_cases h1 : key.oid = k.oid
    · rw [if_pos h1] at hp
      rcases List.mem_cons.mp hp with rfl | hmem
      · right; simp
      · right
        simp only [List.map_cons, List.mem_cons]
        exact Or.inr (List.mem_map_of_mem Prod.fst hmem)
    · rw [if_neg h1] at hp
      by_cases h2 : key.oid < k.oid
      · rw [if_pos h2] at hp
        rcases List.mem_cons.mp hp with rfl | hmem
        · left; rfl
        · rcases List.mem_cons.mp hmem with rfl | hmem2
          · right; simp
          · right
            simp only [List.map_cons, List.mem_cons]
            exact Or.inr (List.mem_map_of_mem Prod.fst hmem2)
      · rw [if_neg h2] at hp
        rcases List.mem_cons.mp hp with rfl | hmem
        · right; simp
        · rcases ih p hmem with hkey | hmem2
          · left; exact hkey
          · right
            simp only [List.map_cons, List.mem_cons]
            exact Or.inr hmem2

theorem tagsAdd_sorted (res : Tags) (key : CommitId) (value : Tag)
    (h : TagsSortedKeys res) : TagsSortedKeys (tagsAdd res key value) := by
  induction res with
  | nil => simp [tagsAdd, TagsSortedKeys]
  | cons hd tl ih =>
    obtain ⟨k, vs⟩ := hd
    simp only [TagsSortedKeys] at h ⊢
    rw [List.pairwise_cons] at h
    obtain ⟨hk, htl⟩ := h
    by_cases h1 : key.oid = k.oid
    · simp only [tagsAdd, if_pos h1]
      rw [List.pairwise_cons]
      exact ⟨fun a ha => hk a ha, htl⟩
    · by_cases h2 : key.oid < k.oid
      · simp only [tagsAdd, if_neg h1, if_pos h2]
        rw [List.pairwise_cons]
        constructor
        · intro a ha
          rcases List.mem_cons.mp ha with rfl | hmem
          · exact h2
          · exact lt_trans h2 (hk a hmem)
        · rw [List.pairwise_cons]
          exact ⟨hk, htl⟩
      · simp only [tagsAdd, if_neg h1, if_neg h2]
        rw [List.pairwise_cons]
        constructor
        · intro a ha
          rcases tagsAdd_keys tl key value a ha with hkey | hmem
          · have hgt : k.oid < key.oid :=
              lt_of_le_of_ne (Nat.le_of_not_lt h2) (Ne.symm h1)
            rw [hkey]
            exact hgt
          · rcases List.mem_map.mp hmem with ⟨q, hq, hq1⟩
            exact hq1 ▸ hk q hq
        · exact ih htl

theorem tagForeachFold_sorted (repo : TagRepo) (refs : List TagRef)
    (res : Tags) (hres : TagsSortedKeys res) (out : Tags)
    (h : tagForeachFold repo refs res = .ok out) : TagsSortedKeys out := by
  induction refs generalizing res with
  | nil =>
    simp only [tagForeachFold] at h
    cases h
    exact hres
  | cons tr rest ih =>
    simp only [tagForeachFold] at h
    cases hname : tr.name_utf8 with
    | none => simp [hname] at h
    | some name =>
      simp only [hname] at h
      cases hc : repo.find_tag_target_commit tr.id with
      | some cid =>
        simp only [hc] at h
        exact ih _ (tagsAdd_sorted _ _ _ hres) h
      | none =>
        simp only [hc] at h
        by_cases hfc : repo.find_commit_ok tr.id
        · simp only [hfc, if_true] at h
          exact ih _ (tagsAdd_sorted _ _ _ hres) h
        · simp only [hfc, if_false] at h
          exact ih _ hres h

/-- Claim C1: for every repository that contains no tags, `get_tags` returns
success with the empty collection. -/
theorem get_tags_empty_repo (repo : TagRepo) (h : repo.tag_refs = []) :
    get_tags repo = .ok ([] : Tags) := by
  simp [get_tags, h, tagForeachFold]

/-- Witness for C1: a concrete repository with no tag refs. -/
theorem get_tags_empty_repo_witness :
    get_tags ⟨[], fun _ => none, fun _ => false, fun _ => none⟩ =
      .ok ([] : Tags) :=
  get_tags_empty_repo ⟨[], fun _ => none, fun _ => false, fun _ => none⟩ rfl

/-- Claim C4: every successful `get_tags` result is an association list whose
commit-id keys are in strictly ascending `Oid` (byte-value) order — each
commit id occurs at most once, all tags of one commit grouped at that key. -/
theorem get_tags_sorted (repo : TagRepo) (t : Tags)
    (h : get_tags repo = .ok t) : TagsSortedKeys t := by
  exact tagForeachFold_sorted repo repo.tag_refs [] (by simp [TagsSortedKeys]) t h

/-- Witness for C4: a repository with two lightweight tags enumerated in
descending target order still yields an ascending `Tags` map. -/
theorem get_tags_sorted_witness :
    TagsSortedKeys [(CommitId.new 3, [Tag.mk "b" none]),
                    (CommitId.new 7, [Tag.mk "a" none])] := by
  have h : get_tags ⟨[⟨7, some "a"⟩, ⟨3, some "b"⟩],
      fun _ => none, fun _ => true, fun _ => none⟩ =
      .ok [(CommitId.new 3, [Tag.mk "b" none]),
           (CommitId.new 7, [Tag.mk "a" none])] := by
    simp [get_tags, tagForeachFold, tagsAdd, CommitId.new]
  exact get_tags_sorted _ _ h

/-! ## stash.rs -/

/-- The repository as seen by the stash operations. libgit2 is an external
collaborator: `stashes` is its stash list (most recent first, the order
`stash_foreach` enumerates and the position `git_stash_drop` indexes),
`signature_ok` tells whether `repo.signature()` succeeds, `has_changes u k`
whether `stash_save2` with flags `INCLUDE_UNTRACKED = u`, `KEEP_INDEX = k`
finds anything to stash, `next_stash_id` the id of the stash commit it would
create, `apply_conflict i` whether applying the stash at index `i` conflicts
with current working-tree changes, and `apply_other_fail i` whether the apply
fails for a reason other than such a conflict. -/
structure StashRepo where
  stashes : List Oid
  signature_ok : Bool
  has_changes : Bool → Bool → Bool
  next_stash_id : Oid
  apply_conflict : Nat → Bool
  apply_other_fail : Nat → Bool

/-- Rust `get_stashes` (stash.rs): collects every stash id via
`stash_foreach`, converting each `Oid` into a `CommitId`. -/
def get_stashes (repo : StashRepo) : EResult (List CommitId) :=
  .ok (repo.stashes.map CommitId.new)

/-- The `stash_foreach` loop inside `get_stash_index`: remember the index of
the first stash whose id equals `stash_id` and stop there. -/
def stashForeachFind (stash_id : Oid) : List Oid → Nat → Option Nat
  | [], _ => none
  | id :: rest, i =>
    if id = stash_id then some i else stashForeachFind stash_id rest (i + 1)

/-- Rust `get_stash_index` (stash.rs): the index of `stash_id` in the stash
list, or `Error::Generic("stash commit not found")`. -/
def get_stash_index (repo : StashRepo) (stash_id : Oid) : EResult Nat :=
  match stashForeachFind stash_id repo.stashes 0 with
  | some i => .ok i
  | none => .error (.generic "stash commit not found")

/-- Rust `stash_drop` (stash.rs): resolve the stash index, then
`repo.stash_drop(index)`. The second component is the repository state after
the call (unchanged when the call fails before mutating). -/
def stash_drop (repo : StashRepo) (stash_id : CommitId) :
    EResult Unit × StashRepo :=
  match get_stash_index repo stash_id.oid with
  | .error e => (.error e, repo)
  | .ok i => (.ok (), { repo with stashes := repo.stashes.eraseIdx i })

/-- Modelled behavior of libgit2 `git_stash_apply` (external collaborator):
fails with a checkout-conflict error when applying the stash at index `i`
conflicts with current working-tree changes and the checkout options do not
allow conflicts; otherwise it can still fail for a non-conflict reason. It
never changes the stash list. -/
def git_stash_apply (repo : StashRepo) (i : Nat) (allow_conflicts : Bool) :
    EResult Unit :=
  if repo.apply_conflict i && !allow_conflicts then
    .error (.git "checkout conflict")
  else if repo.apply_other_fail i then .error (.git "stash apply failed")
  else .ok ()

/-- Rust `stash_pop` (stash.rs): resolve the index, then
`repo.stash_pop(index, None)` — libgit2 applies the stash with default
checkout options (conflicts not allowed) and drops it only if the apply
succeeded. -/
def stash_pop (repo : StashRepo) (stash_id : CommitId) :
    EResult Unit × StashRepo :=
  match get_stash_index repo stash_id.oid with
  | .error e => (.error e, repo)
  | .ok i =>
    match git_stash_apply repo i false with
    | .error e => (.error e, repo)
    | .ok _ => (.ok (), { repo with stashes := repo.stashes.eraseIdx i })

/-- Rust `stash_apply` (stash.rs): resolve the index, build checkout options
with `allow_conflicts(allow_conflicts)`, then `repo.stash_apply`. The stash
list is not modified by an apply. -/
def stash_apply (repo : StashRepo) (stash_id : CommitId)
    (allow_conflicts : Bool) : EResult Unit × StashRepo :=
  match get_stash_index repo (CommitId.get_oid stash_id) with
  | .error e => (.error e, repo)
  | .ok i => (git_stash_apply repo i allow_conflicts, repo)

/-- Rust `stash_save` (stash.rs): `repo.signature()?`, assemble the
`StashFlags` from `include_untracked` / `keep_index`, then
`repo.stash_save2(&sig, message, options)`, which creates a new stash commit
and pushes it onto the front of the stash list, returning its id. -/
def stash_save (repo : StashRepo) (message : Option String)
    (include_untracked : Bool) (keep_index : Bool) :
    EResult CommitId × StashRepo :=
  if repo.signature_ok then
    if repo.has_changes include_untracked keep_index then
      (.ok (CommitId.new repo.next_stash_id),
        { repo with stashes := repo.next_stash_id :: repo.stashes })
    else (.error (.git "cannot stash changes"), repo)
  else (.error (.git "config value signature not found"), repo)

theorem stashForeachFind_none (x : Oid) (l : List Oid) (h : x ∉ l) :
    ∀ i, stashForeachFind x l i = none := by
  induction l with
  | nil => intro i; rfl
  | cons a as ih =>
    intro i
    simp only [List.mem_cons, not_or] at h
    have hne : ¬(a = x) := fun he => h.1 he.symm
    simp only [stashForeachFind, if_neg hne]
    exact ih h.2 (i + 1)

/-- Claim C2: whenever `stash_save` succeeds with a new stash `CommitId`, the
list `get_stashes` returns immediately afterwards is the returned id consed
onto the previous list — exactly one more entry, containing the returned id,
and no entry that does not come from a completed save. -/
theorem stash_save_adds_one (repo repo2 : StashRepo) (message : Option String)
    (include_untracked keep_index : Bool) (id : CommitId)
    (old l2 : List CommitId)
    (h : stash_save repo message include_untracked keep_index =
      (.ok id, repo2))
    (hold : get_stashes repo = .ok old)
    (hnew : get_stashes repo2 = .ok l2) :
    l2 = id :: old ∧ l2.length = old.length + 1 ∧ id ∈ l2 := by
  unfold stash_save at h
  by_cases hs : repo.signature_ok
  · rw [if_pos hs] at h
    by_cases hc : repo.has_changes include_untracked keep_index
    · rw [if_pos hc] at h
      simp only [Prod.mk.injEq, Except.ok.injEq] at h
      obtain ⟨h1, h2⟩ := h
      subst h1
      subst h2
      simp only [get_stashes, Except.ok.injEq] at hold hnew
      subst hold
      simp only [List.map_cons] at hnew
      subst hnew
      exact ⟨rfl, by simp, by simp⟩
    · rw [if_neg hc] at h
      simp at h
  · rw [if_neg hs] at h
    simp at h

/-- Witness for C2: saving a stash on a repository that already holds one
stash yields a two-element list headed by the new id. -/
theorem stash_save_adds_one_witness :
    ([CommitId.new 9, CommitId.new 3] : List CommitId) =
        CommitId.new 9 :: [CommitId.new 3] ∧
      ([CommitId.new 9, CommitId.new 3] : List CommitId).length =
        [CommitId.new 3].length + 1 ∧
      CommitId.new 9 ∈ ([CommitId.new 9, CommitId.new 3] : List CommitId) :=
  stash_save_adds_one
    ⟨[3], true, fun _ _ => true, 9, fun _ => false, fun _ => false⟩
    ⟨[9, 3], true, fun _ _ => true, 9, fun _ => false, fun _ => false⟩
    none true false (CommitId.new 9) [CommitId.new 3]
    [CommitId.new 9, CommitId.new 3] rfl rfl rfl

/-- Claim C3: for a `stash_id` that is not among the ids returned by
`get_stashes`, each of `stash_drop`, `stash_pop` and `stash_apply` fails with
the typed `Error::Generic("stash commit not found")` failure and leaves the
stash list unchanged. -/
theorem stash_ops_missing_id (repo : StashRepo) (stash_id : CommitId)
    (l : List CommitId) (hl : get_stashes repo = .ok l) (h : stash_id ∉ l) :
    stash_drop repo stash_id =
        (.error (.generic "stash commit not found"), repo) ∧
      stash_pop repo stash_id =
        (.error (.generic "stash commit not found"), repo) ∧
      ∀ allow_conflicts, stash_apply repo stash_id allow_conflicts =
        (.error (.generic "stash commit not found"), repo) := by
  simp only [get_stashes, Except.ok.injEq] at hl
  subst hl
  have hoid : stash_id.oid ∉ repo.stashes := by
    intro hmem
    exact h (List.mem_map_of_mem CommitId.new hmem)
  have hidx :
      get_stash_index repo stash_id.oid =
        .error (.generic "stash commit not found") := by
    simp [get_stash_index, stashForeachFind_none _ _ hoid]
  refine ⟨?_, ?_, ?_⟩
  · simp [stash_drop, hidx]
  · simp [stash_pop, hidx]
  · intro allow_conflicts
    simp [stash_apply, CommitId.get_oid, hidx]

/-- Witness for C3: dropping, popping or applying an id absent from a
one-stash repository fails without touching the list. -/
theorem stash_ops_missing_id_witness :
    stash_drop ⟨[4], true, fun _ _ => true, 9, fun _ => false, fun _ => false⟩
        (CommitId.new 5) =
      (.error (.generic "stash commit not found"),
        ⟨[4], true, fun _ _ => true, 9, fun _ => false, fun _ => false⟩) ∧
    stash_pop ⟨[4], true, fun _ _ => true, 9, fun _ => false, fun _ => false⟩
        (CommitId.new 5) =
      (.error (.generic "stash commit not found"),
        ⟨[4], true, fun _ _ => true, 9, fun _ => false, fun _ => false⟩) ∧
    ∀ allow_conflicts,
      stash_apply
          ⟨[4], true, fun _ _ => true, 9, fun _ => false, fun _ => false⟩
          (CommitId.new 5) allow_conflicts =
        (.error (.generic "stash commit not found"),
          ⟨[4], true, fun _ _ => true, 9, fun _ => false, fun _ => false⟩) :=
  stash_ops_missing_id
    ⟨[4], true, fun _ _ => true, 9, fun _ => false, fun _ => false⟩
    (CommitId.new 5) [CommitId.new 4] rfl (by decide)

/-- Claim C5: when applying the stash identified by `stash_id` would conflict
with current working-tree changes, `stash_apply` with
`allow_conflicts = false` fails with the typed checkout-conflict error; and
there are such repository states on which the same call with
`allow_conflicts = true` succeeds. -/
theorem stash_apply_conflict_behavior :
    (∀ (repo : StashRepo) (stash_id : CommitId) (i : Nat),
        get_stash_index repo (CommitId.get_oid stash_id) = .ok i →
        repo.apply_conflict i = true →
        stash_apply repo stash_id false =
          (.error (.git "checkout conflict"), repo)) ∧
      (∃ (repo : StashRepo) (stash_id : CommitId) (i : Nat),
        get_stash_index repo (CommitId.get_oid stash_id) = .ok i ∧
        repo.apply_conflict i = true ∧
        (stash_apply repo stash_id false).1 =
          .error (.git "checkout conflict") ∧
        (stash_apply repo stash_id true).1 = .ok ()) := by
  constructor
  · intro repo stash_id i hidx hconf
    simp [stash_apply, hidx, git_stash_apply, hconf]
  · refine ⟨⟨[5], true, fun _ _ => true, 9, fun _ => true, fun _ => false⟩,
      CommitId.new 5, 0, ?_, rfl, ?_, ?_⟩
    · rfl
    · rfl
    · rfl

/-- Witness for C5: the universal half applied at a concrete conflicting
repository state. -/
theorem stash_apply_conflict_behavior_witness :
    stash_apply
        ⟨[5], true, fun _ _ => true, 9, fun _ => true, fun _ => false⟩
        (CommitId.new 5) false =
      (.error (.git "checkout conflict"),
        ⟨[5], true, fun _ _ => true, 9, fun _ => true, fun _ => false⟩) :=
  stash_apply_conflict_behavior.1
    ⟨[5], true, fun _ _ => true, 9, fun _ => true, fun _ => false⟩
    (CommitId.new 5) 0 rfl rfl

/-! ## status.rs

`get_status` sorts its result with
`res.sort_by(|a, b| Path::new(&a.path).cmp(Path::new(&b.path)))`: paths are
compared component-wise, not as raw strings. The comparison is embedded
below: `pathComponents` models `std::path::Path::components` for Unix paths
(no Windows prefixes), `componentCmp` the derived `Ord` on
`std::path::Component`, and `pathCmp` the lexicographic comparison of the
component sequences that `Path::cmp` performs. -/

/-- Three-way comparison on `Nat`, the shape of Rust `Ord::cmp`. -/
def natCmp (a b : Nat) : Ordering :=
  if a < b then .lt else if b < a then .gt else .eq

/-- Byte-wise comparison of strings (Rust `str` orders by UTF-8 bytes, which
agrees with code-point order). -/
def charCmp (a b : Char) : Ordering := natCmp a.toNat b.toNat

/-- Lexicographic comparison of lists under an element comparison, the shape
of Rust `Iterator::cmp`. -/
def lexCmp (cmp : α → α → Ordering) : List α → List α → Ordering
  | [], [] => .eq
  | [], _ :: _ => .lt
  | _ :: _, [] => .gt
  | a :: as, b :: bs =>
    match cmp a b with
    | .eq => lexCmp cmp as bs
    | o => o

/-- Rust `str` comparison. -/
def strCmp (a b : String) : Ordering := lexCmp charCmp a.data b.data

/-- Rust `std::path::Component`, restricted to the variants a Unix path
without a Windows prefix can produce. The derived `Ord` on the Rust enum
orders by variant first (`RootDir < CurDir < ParentDir < Normal`), then by
the contained name. -/
inductive PathComponent where
  | rootDir
  | curDir
  | parentDir
  | normal : String → PathComponent
deriving DecidableEq, Repr

/-- Variant index of the derived `Ord` on `Component`. -/
def componentRank : PathComponent → Nat
  | .rootDir => 0
  | .curDir => 1
  | .parentDir => 2
  | .normal _ => 3

/-- The derived `Ord::cmp` on `std::path::Component`. -/
def componentCmp (a b : PathComponent) : Ordering :=
  match a, b with
  | .normal x, .normal y => strCmp x y
  | _, _ => natCmp (componentRank a) (componentRank b)

/-- Splitting a character list at every occurrence of the separator `c`, the
splitting `Path::components` performs at `/`. -/
def splitOnChar (c : Char) : List Char → List (List Char)
  | [] => [[]]
  | x :: xs =>
    if x = c then [] :: splitOnChar c xs
    else
      match splitOnChar c xs with
      | [] => [[x]]
      | y :: ys => (x :: y) :: ys

/-- Model of `Path::components` for a Unix path: a leading `/` yields
`RootDir`; a leading `.` yields `CurDir`; empty and interior `.` chunks
between separators are dropped; `..` becomes `ParentDir`. -/
def pathComponents (p : String) : List PathComponent :=
  let cs := p.data
  let parts := (splitOnChar '/' cs).filter
    (fun s => !(s == []) && !(s == ['.']))
  let comps := parts.map
    (fun s =>
      if s == ['.', '.'] then PathComponent.parentDir
      else .normal (String.mk s))
  let hasRoot : Bool :=
    match cs with
    | '/' :: _ => true
    | _ => false
  let hasCur : Bool :=
    match cs with
    | ['.'] => true
    | '.' :: '/' :: _ => true
    | _ => false
  if hasRoot then .rootDir :: comps
  else if hasCur then .curDir :: comps
  else comps

/-- Rust `Path::cmp`: lexicographic comparison of the component sequences. -/
def pathCmp (a b : String) : Ordering :=
  lexCmp componentCmp (pathComponents a) (pathComponents b)

/-- Non-strict path order: `a` need not come after `b`. -/
def pathLe (a b : String) : Bool := !(pathCmp a b == .gt)

/-- Rust `git2::Status` bitflags, restricted to the predicates
`StatusItemType::from<Status>` consults. -/
structure GitStatus where
  index_new : Bool
  wt_new : Bool
  index_deleted : Bool
  wt_deleted : Bool
  index_renamed : Bool
  wt_renamed : Bool
  index_typechange : Bool
  wt_typechange : Bool
  conflicted : Bool
deriving DecidableEq, Repr

/-- Rust `StatusItemType` (status.rs). -/
inductive StatusItemType where
  | New
  | Modified
  | Deleted
  | Renamed
  | Typechange
  | Conflicted
deriving DecidableEq, Repr

/-- Rust `impl From<Status> for StatusItemType` (status.rs). -/
def StatusItemType.fromStatus (s : GitStatus) : StatusItemType :=
  if s.index_new || s.wt_new then .New
  else if s.index_deleted || s.wt_deleted then .Deleted
  else if s.index_renamed || s.wt_renamed then .Renamed
  else if s.index_typechange || s.wt_typechange then .Typechange
  else if s.conflicted then .Conflicted
  else .Modified

/-- Rust `StatusItem` (status.rs). -/
structure StatusItem where
  path : String
  status : StatusItemType
deriving DecidableEq, Repr

/-- Rust `StatusType` (status.rs). -/
inductive StatusType where
  | WorkingDir
  | Stage
  | Both
deriving DecidableEq, Repr

/-- Rust `git2::StatusShow`. -/
inductive StatusShow where
  | Workdir
  | Index
  | IndexAndWorkdir
deriving DecidableEq, Repr

/-- Rust `impl From<StatusType> for StatusShow` (status.rs). -/
def StatusShow.fromType : StatusType → StatusShow
  | .WorkingDir => .Workdir
  | .Stage => .Index
  | .Both => .IndexAndWorkdir

/-- Modelled from the spec: `ShowUntrackedFilesConfig` lives in
`asyncgit/src/sync/config.rs`, which is not part of this snapshot; only its
two accessors `include_untracked()` and `recurse_untracked_dirs()` are
consumed here, so it is embedded as the pair of their results. -/
structure ShowUntrackedFilesConfig where
  include_untracked : Bool
  recurse_untracked_dirs : Bool
deriving DecidableEq, Repr

/-- Rust `git2::StatusOptions` as assembled by status.rs: `show`,
`update_index(true)`, `include_untracked`, `renames_head_to_index(true)`,
`recurse_untracked_dirs`. -/
structure StatusOptions where
  show_opt : StatusShow
  update_index : Bool
  include_untracked : Bool
  renames_head_to_index : Bool
  recurse_untracked_dirs : Bool
deriving DecidableEq, Repr

/-- One entry of `git2::Statuses`: its status flags, the optional
head-to-index diff (whose new-file path may fail `Path::to_str`), and the
entry path (which may be absent). -/
structure StatusEntry where
  status : GitStatus
  head_to_index_new_path : Option (Option String)
  path : Option String

/-- The repository as seen by status.rs: the `is_bare()` / `is_worktree()`
flags, the repository-level untracked-files configuration (a `Result`, since
reading config can fail), and the `statuses(options)` query of libgit2. -/
structure StatusRepo where
  is_bare : Bool
  is_worktree : Bool
  untracked_config : EResult ShowUntrackedFilesConfig
  statuses : StatusOptions → EResult (List StatusEntry)

/-- The `show_untracked` resolution shared by `get_status` and
`is_workdir_clean`: an explicit argument wins, otherwise
`untracked_files_config_repo(&repo)?`. -/
def resolveUntracked (repo : StatusRepo)
    (show_untracked : Option ShowUntrackedFilesConfig) :
    EResult ShowUntrackedFilesConfig :=
  match show_untracked with
  | some config => .ok config
  | none => repo.untracked_config

/-- The `StatusOptions` both functions build. -/
def mkStatusOptions (show_opt : StatusShow)
    (config : ShowUntrackedFilesConfig) : StatusOptions :=
  ⟨show_opt, true, config.include_untracked, true,
    config.recurse_untracked_dirs⟩

/-- The path extraction of the `get_status` loop body: prefer the
head-to-index diff's new-file path, falling back to the entry path, each with
its own `Error::Generic` message. -/
def entryPath (e : StatusEntry) : EResult String :=
  match e.head_to_index_new_path with
  | some diff =>
    match diff with
    | some p => .ok p
    | none => .error (.generic "failed to get path to diff new file.")
  | none =>
    match e.path with
    | some p => .ok p
    | none => .error (.generic "failed to get the path to indexed file.")

/-- The `for e in statuses.iter()` loop of `get_status`, stopping at the
first path-extraction error. -/
def collectItems : List StatusEntry → EResult (List StatusItem)
  | [] => .ok []
  | e :: rest =>
    match entryPath e with
    | .error err => .error err
    | .ok p =>
      match collectItems rest with
      | .error err => .error err
      | .ok tail => .ok (⟨p, StatusItemType.fromStatus e.status⟩ :: tail)

/-- Stable insertion into a list sorted by `le`, placing the new element
before the first position it may precede. -/
def insortBy (le : α → α → Bool) (x : α) : List α → List α
  | [] => [x]
  | y :: ys => if le x y then x :: y :: ys else y :: insortBy le x ys

/-- Stable sort by `le`, the observable behavior of `Vec::sort_by` under the
comparator `le a b = (cmp(a, b) != Greater)`. -/
def sortBy (le : α → α → Bool) : List α → List α
  | [] => []
  | x :: xs => insortBy le x (sortBy le xs)

/-- The comparator `get_status` sorts with. -/
def statusItemLe (a b : StatusItem) : Bool := pathLe a.path b.path

/-- Rust `get_status` (status.rs): empty list for a bare non-worktree
repository, otherwise enumerate statuses, extract paths, and sort by
`Path::cmp` on the paths. -/
def get_status (repo : StatusRepo) (status_type : StatusType)
    (show_untracked : Option ShowUntrackedFilesConfig) :
    EResult (List StatusItem) :=
  if repo.is_bare && !repo.is_worktree then .ok []
  else
    match resolveUntracked repo show_untracked with
    | .error e => .error e
    | .ok config =>
      match repo.statuses
          (mkStatusOptions (StatusShow.fromType status_type) config) with
      | .error e => .error e
      | .ok entries =>
        match collectItems entries with
        | .error e => .error e
        | .ok res => .ok (sortBy statusItemLe res)

/-- Rust `is_workdir_clean` (status.rs): `true` for a bare non-worktree
repository, otherwise whether the `Workdir` status enumeration is empty. -/
def is_workdir_clean (repo : StatusRepo)
    (show_untracked : Option ShowUntrackedFilesConfig) : EResult Bool :=
  if repo.is_bare && !repo.is_worktree then .ok true
  else
    match resolveUntracked repo show_untracked with
    | .error e => .error e
    | .ok config =>
      match repo.statuses (mkStatusOptions .Workdir config) with
      | .error e => .error e
      | .ok entries => .ok entries.isEmpty

theorem natCmp_swap (a b : Nat) : natCmp b a = (natCmp a b).swap := by
  unfold natCmp
  by_cases h1 : a < b
  · have h2 : ¬b < a := Nat.lt_asymm h1
    simp [h1, h2, Ordering.swap]
  · by_cases h2 : b < a
    · simp [h1, h2, Ordering.swap]
    · simp [h1, h2, Ordering.swap]

theorem natCmp_eq_iff (a b : Nat) : natCmp a b = .eq ↔ a = b := by
  unfold natCmp
  by_cases h1 : a < b
  · simp [h1]; omega
  · by_cases h2 : b < a
    · simp [h1, h2]; omega
    · simp [h1, h2]; omega

theorem natCmp_lt_iff (a b : Nat) : natCmp a b = .lt ↔ a < b := by
  unfold natCmp
  by_cases h1 : a < b
  · simp [h1]
  · by_cases h2 : b < a <;> simp [h1, h2]

theorem charCmp_swap (a b : Char) : charCmp b a = (charCmp a b).swap :=
  natCmp_swap a.toNat b.toNat

theorem charCmp_eq_iff (a b : Char) : charCmp a b = .eq ↔ a = b := by
  unfold charCmp
  rw [natCmp_eq_iff]
  constructor
  · intro h
    have := congrArg Char.ofNat h
    rwa [Char.ofNat_toNat, Char.ofNat_toNat] at this
  · intro h
    rw [h]

theorem charCmp_lt_trans (a b c : Char) (h1 : charCmp a b = .lt)
    (h2 : charCmp b c = .lt) : charCmp a c = .lt := by
  unfold charCmp at h1 h2 ⊢
  rw [natCmp_lt_iff] at h1 h2 ⊢
  exact Nat.lt_trans h1 h2

theorem lexCmp_swap (cmp : α → α → Ordering)
    (hswap : ∀ a b, cmp b a = (cmp a b).swap) :
    ∀ xs ys, lexCmp cmp ys xs = (lexCmp cmp xs ys).swap := by
  intro xs
  induction xs with
  | nil => intro ys; cases ys <;> rfl
  | cons a as ih =>
    intro ys
    cases ys with
    | nil => rfl
    | cons b bs =>
      simp only [lexCmp]
      rw [hswap a b]
      cases h : cmp a b <;> simp [Ordering.swap, ih bs]

theorem lexCmp_eq_iff (cmp : α → α → Ordering)
    (helem : ∀ a b, cmp a b = .eq ↔ a = b) :
    ∀ xs ys, lexCmp cmp xs ys = .eq ↔ xs = ys := by
  intro xs
  induction xs with
  | nil => intro ys; cases ys <;> simp [lexCmp]
  | cons a as ih =>
    intro ys
    cases ys with
    | nil => simp [lexCmp]
    | cons b bs =>
      simp only [lexCmp]
      cases h : cmp a b with
      | lt => simp [List.cons_eq_cons, (helem a b).symm, h]
      | gt => simp [List.cons_eq_cons, (helem a b).symm, h]
      | eq =>
        rw [ih bs]
        simp [List.cons_eq_cons, (helem a b).mp h]

theorem lexCmp_lt_trans (cmp : α → α → Ordering)
    (helem : ∀ a b, cmp a b = .eq ↔ a = b)
    (htrans : ∀ a b c, cmp a b = .lt → cmp b c = .lt → cmp a c = .lt) :
    ∀ xs ys zs, lexCmp cmp xs ys = .lt → lexCmp cmp ys zs = .lt →
      lexCmp cmp xs zs = .lt := by
  intro xs
  induction xs with
  | nil =>
    intro ys zs h1 h2
    cases zs with
    | nil =>
      cases ys with
      | nil => exact h1
      | cons b bs => simp [lexCmp] at h2
    | cons c cs => rfl
  | cons a as ih =>
    intro ys zs h1 h2
    cases ys with
    | nil => simp [lexCmp] at h1
    | cons b bs =>
      cases zs with
      | nil => simp [lexCmp] at h2
      | cons c cs =>
        simp only [lexCmp] at h1 h2 ⊢
        cases hab : cmp a b with
        | gt => simp [hab] at h1
        | lt =>
          cases hbc : cmp b c with
          | gt => simp [hbc] at h2
          | lt => simp [htrans a b c hab hbc]
          | eq =>
            have hb : b = c := (helem b c).mp hbc
            subst hb
            simp [hab]
        | eq =>
          have ha : a = b := (helem a b).mp hab
          subst ha
          cases hbc : cmp a c with
          | gt => simp [hbc] at h2
          | lt => simp [hbc]
          | eq =>
            simp only [hab] at h1
            simp only [hbc] at h2
            simp [hbc, ih bs cs h1 h2]

theorem strCmp_swap (a b : String) : strCmp b a = (strCmp a b).swap :=
  lexCmp_swap charCmp charCmp_swap a.data b.data

theorem strCmp_eq_iff (a b : String) : strCmp a b = .eq ↔ a = b := by
  unfold strCmp
  rw [lexCmp_eq_iff charCmp charCmp_eq_iff]
  constructor
  · intro h
    exact congrArg String.mk h
  · intro h
    rw [h]

theorem strCmp_lt_trans (a b c : String) (h1 : strCmp a b = .lt)
    (h2 : strCmp b c = .lt) : strCmp a c = .lt :=
  lexCmp_lt_trans charCmp charCmp_eq_iff charCmp_lt_trans a.data b.data c.data
    h1 h2

theorem componentCmp_swap (a b : PathComponent) :
    componentCmp b a = (componentCmp a b).swap := by
  cases a <;> cases b <;>
    first
      | exact strCmp_swap _ _
      | exact natCmp_swap _ _

theorem componentCmp_eq_iff (a b : PathComponent) :
    componentCmp a b = .eq ↔ a = b := by
  cases a <;> cases b <;>
    simp only [componentCmp, componentRank, natCmp_eq_iff, strCmp_eq_iff] <;>
    simp

theorem componentCmp_lt_trans (a b c : PathComponent)
    (h1 : componentCmp a b = .lt) (h2 : componentCmp b c = .lt) :
    componentCmp a c = .lt := by
  cases a <;> cases b <;> cases c <;>
    simp only [componentCmp, componentRank, natCmp_lt_iff] at h1 h2 ⊢ <;>
    first
      | exact strCmp_lt_trans _ _ _ h1 h2
      | omega

theorem pathCmp_swap (a b : String) : pathCmp b a = (pathCmp a b).swap :=
  lexCmp_swap componentCmp componentCmp_swap (pathComponents a)
    (pathComponents b)

theorem pathCmp_lt_trans (a b c : String) (h1 : pathCmp a b = .lt)
    (h2 : pathCmp b c = .lt) : pathCmp a c = .lt :=
  lexCmp_lt_trans componentCmp componentCmp_eq_iff componentCmp_lt_trans
    (pathComponents a) (pathComponents b) (pathComponents c) h1 h2

theorem pathCmp_eq_trans (a b c : String) (h1 : pathCmp a b = .eq) :
    pathCmp a c = pathCmp b c := by
  unfold pathCmp at h1 ⊢
  rw [lexCmp_eq_iff componentCmp componentCmp_eq_iff] at h1
  rw [h1]

theorem pathCmp_eq_congr_right (a b c : String) (h1 : pathCmp b c = .eq) :
    pathCmp a b = pathCmp a c := by
  unfold pathCmp at h1 ⊢
  rw [lexCmp_eq_iff componentCmp componentCmp_eq_iff] at h1
  rw [h1]

theorem pathLe_total (a b : String) : pathLe a b = true ∨ pathLe b a = true := by
  cases h : pathCmp a b with
  | lt => left; simp only [pathLe, h]; rfl
  | eq => left; simp only [pathLe, h]; rfl
  | gt =>
    right
    have hba : pathCmp b a = .lt := by rw [pathCmp_swap a b, h]; rfl
    simp only [pathLe, hba]
    rfl

theorem pathLe_trans (a b c : String) (h1 : pathLe a b = true)
    (h2 : pathLe b c = true) : pathLe a c = true := by
  have h1x : pathCmp a b ≠ .gt := by
    intro hg
    simp [pathLe, hg] at h1
    exact absurd h1 (by decide)
  have h2x : pathCmp b c ≠ .gt := by
    intro hg
    simp [pathLe, hg] at h2
    exact absurd h2 (by decide)
  have hgoal : pathCmp a c ≠ .gt → pathLe a c = true := by
    intro hg
    cases hac : pathCmp a c with
    | lt => simp only [pathLe, hac]; rfl
    | eq => simp only [pathLe, hac]; rfl
    | gt => exact absurd hac hg
  apply hgoal
  cases hab : pathCmp a b with
  | gt => exact absurd hab h1x
  | eq =>
    rw [pathCmp_eq_trans a b c hab]
    exact h2x
  | lt =>
    cases hbc : pathCmp b c with
    | gt => exact absurd hbc h2x
    | eq =>
      rw [← pathCmp_eq_congr_right a b c hbc, hab]
      simp
    | lt =>
      rw [pathCmp_lt_trans a b c hab hbc]
      simp

theorem statusItemLe_total (a b : StatusItem) :
    statusItemLe a b = true ∨ statusItemLe b a = true :=
  pathLe_total a.path b.path

theorem statusItemLe_trans (a b c : StatusItem) (h1 : statusItemLe a b = true)
    (h2 : statusItemLe b c = true) : statusItemLe a c = true :=
  pathLe_trans a.path b.path c.path h1 h2

theorem insortBy_mem (le : α → α → Bool) (x : α) (l : List α) :
    ∀ b ∈ insortBy le x l, b = x ∨ b ∈ l := by
  induction l with
  | nil =>
    intro b hb
    simp only [insortBy, List.mem_singleton] at hb
    exact Or.inl hb
  | cons y ys ih =>
    intro b hb
    simp only [insortBy] at hb
    by_cases hxy : le x y = true
    · rw [if_pos hxy] at hb
      rcases List.mem_cons.mp hb with rfl | hb2
      · exact Or.inl rfl
      · exact Or.inr hb2
    · rw [if_neg hxy] at hb
      rcases List.mem_cons.mp hb with rfl | hb2
      · exact Or.inr (List.mem_cons_self b ys)
      · rcases ih b hb2 with h | h
        · exact Or.inl h
        · exact Or.inr (List.mem_cons_of_mem y h)

theorem insortBy_pairwise (le : α → α → Bool)
    (htot : ∀ a b, le a b = true ∨ le b a = true)
    (htrans : ∀ a b c, le a b = true → le b c = true → le a c = true)
    (x : α) (l : List α) (h : l.Pairwise (fun a b => le a b = true)) :
    (insortBy le x l).Pairwise (fun a b => le a b = true) := by
  induction l with
  | nil => simp [insortBy]
  | cons y ys ih =>
    rw [List.pairwise_cons] at h
    obtain ⟨hy, hys⟩ := h
    by_cases hxy : le x y = true
    · simp only [insortBy, if_pos hxy]
      rw [List.pairwise_cons]
      refine ⟨?_, ?_⟩
      · intro b hb
        rcases List.mem_cons.mp hb with rfl | hb2
        · exact hxy
        · exact htrans x y b hxy (hy b hb2)
      · rw [List.pairwise_cons]
        exact ⟨hy, hys⟩
    · simp only [insortBy, if_neg hxy]
      rw [List.pairwise_cons]
      refine ⟨?_, ih hys⟩
      intro b hb
      rcases insortBy_mem le x ys b hb with rfl | hb2
      · rcases htot b y with h1 | h1
        · exact absurd h1 hxy
        · exact h1
      · exact hy b hb2

theorem sortBy_pairwise (le : α → α → Bool)
    (htot : ∀ a b, le a b = true ∨ le b a = true)
    (htrans : ∀ a b c, le a b = true → le b c = true → le a c = true)
    (l : List α) :
    (sortBy le l).Pairwise (fun a b => le a b = true) := by
  induction l with
  | nil => simp [sortBy]
  | cons x xs ih => exact insortBy_pairwise le htot htrans x _ ih

/-- Claim C8: every successful `get_status` result is sorted in ascending
path order, paths compared as filesystem paths (`Path::cmp`, component-wise),
not as raw strings. -/
theorem get_status_sorted (repo : StatusRepo) (status_type : StatusType)
    (show_untracked : Option ShowUntrackedFilesConfig)
    (items : List StatusItem)
    (h : get_status repo status_type show_untracked = .ok items) :
    items.Pairwise (fun a b => statusItemLe a b = true) := by
  unfold get_status at h
  by_cases hb : (repo.is_bare && !repo.is_worktree) = true
  · rw [if_pos hb] at h
    injection h with h
    subst h
    simp
  · rw [if_neg hb] at h
    cases h1 : resolveUntracked repo show_untracked with
    | error e => simp [h1] at h
    | ok config =>
      simp only [h1] at h
      cases h2 : repo.statuses
          (mkStatusOptions (StatusShow.fromType status_type) config) with
      | error e => simp [h2] at h
      | ok entries =>
        simp only [h2] at h
        cases h3 : collectItems entries with
        | error e => simp [h3] at h
        | ok res =>
          simp only [h3] at h
          injection h with h
          subst h
          exact sortBy_pairwise statusItemLe statusItemLe_total
            statusItemLe_trans res

/-- Witness for C8: a worktree repository reporting `"a-b"` before `"a/b"`;
path order places `"a/b"` first (as a raw string `"a-b"` would sort first,
since the byte of `-` precedes that of `/`). -/
theorem get_status_sorted_witness :
    List.Pairwise (fun a b => statusItemLe a b = true)
      [(⟨"a/b", .Modified⟩ : StatusItem), ⟨"a-b", .Modified⟩] :=
  get_status_sorted
    ⟨false, false, .ok ⟨true, true⟩,
      fun _ => .ok
        [⟨⟨false, false, false, false, false, false, false, false, false⟩,
          none, some "a-b"⟩,
         ⟨⟨false, false, false, false, false, false, false, false, false⟩,
          none, some "a/b"⟩]⟩
    .WorkingDir (some ⟨true, true⟩)
    [⟨"a/b", .Modified⟩, ⟨"a-b", .Modified⟩] rfl

/-- Claim C9: on a bare repository that is not a worktree, `get_status`
returns success with the empty list and `is_workdir_clean` returns success
with `true`, whatever entries a status enumeration would produce — the
enumeration is never consulted. -/
theorem bare_repo_status (repo : StatusRepo) (status_type : StatusType)
    (show_untracked : Option ShowUntrackedFilesConfig)
    (hb : repo.is_bare = true) (hw : repo.is_worktree = false) :
    get_status repo status_type show_untracked = .ok [] ∧
      is_workdir_clean repo show_untracked = .ok true := by
  constructor
  · simp [get_status, hb, hw]
  · simp [is_workdir_clean, hb, hw]

/-- Witness for C9: a bare non-worktree repository whose status enumeration
would report an entry still yields the empty status list and a clean
workdir. -/
theorem bare_repo_status_witness :
    get_status
        ⟨true, false, .ok ⟨true, true⟩,
          fun _ => .ok
            [⟨⟨false, false, false, false, false, false, false, false,
              false⟩, none, some "x"⟩]⟩
        .WorkingDir none = .ok [] ∧
      is_workdir_clean
        ⟨true, false, .ok ⟨true, true⟩,
          fun _ => .ok
            [⟨⟨false, false, false, false, false, false, false, false,
              false⟩, none, some "x"⟩]⟩
        none = .ok true :=
  bare_repo_status
    ⟨true, false, .ok ⟨true, true⟩,
      fun _ => .ok
        [⟨⟨false, false, false, false, false, false, false, false, false⟩,
          none, some "x"⟩]⟩
    .WorkingDir none rfl rfl

/-! ## help.rs -/

/-- Largest value of a Rust `u16`, the saturation point of
`u16::saturating_add`. -/
def u16Max : Nat := 65535

/-- Rust `HelpPopup::move_selection` (help.rs): `selection` is a `u16`
(embedded as a `Nat` that the function keeps at most `u16Max`); the new
selection is `selection.saturating_add(1)` or `selection.saturating_sub(1)`,
clamped below by `cmp::max(_, 0)` and, whenever
`u16::try_from(cmds.len().saturating_sub(1))` succeeds, above by that bound;
when the conversion fails the selection is left unchanged. -/
def move_selection (cmds_len : Nat) (selection : Nat) (inc : Bool) : Nat :=
  let new_selection :=
    if inc then min (selection + 1) u16Max else selection - 1
  let new_selection2 := max new_selection 0
  if cmds_len - 1 ≤ u16Max then min new_selection2 (cmds_len - 1)
  else selection

/-- A sequence of `move_selection` calls (each `true` a move down, each
`false` a move up), applied to a starting selection. -/
def apply_moves (cmds_len : Nat) (selection : Nat) (moves : List Bool) : Nat :=
  moves.foldl (move_selection cmds_len) selection

theorem move_selection_lt (cmds_len selection : Nat) (inc : Bool)
    (h1 : 1 ≤ cmds_len) (h2 : cmds_len ≤ 65536) :
    move_selection cmds_len selection inc < cmds_len := by
  have hc : cmds_len - 1 ≤ u16Max := by unfold u16Max; omega
  simp only [move_selection, if_pos hc]
  cases inc <;> simp [u16Max] <;> omega

/-- Claim C10: with between 1 and 65536 commands, the selection is strictly
below the command count after any sequence of `move_selection` calls starting
from the initial selection `0`, and `move_selection` saturates at both ends:
moving up at `0` stays at `0`, moving down at the last entry stays there. -/
theorem help_selection_in_bounds (cmds_len : Nat) (moves : List Bool)
    (h1 : 1 ≤ cmds_len) (h2 : cmds_len ≤ 65536) :
    apply_moves cmds_len 0 moves < cmds_len ∧
      move_selection cmds_len 0 false = 0 ∧
      move_selection cmds_len (cmds_len - 1) true = cmds_len - 1 := by
  have hc : cmds_len - 1 ≤ u16Max := by unfold u16Max; omega
  refine ⟨?_, ?_, ?_⟩
  · have hstep : ∀ (selection : Nat) (ms : List Bool), selection < cmds_len →
        apply_moves cmds_len selection ms < cmds_len := by
      intro selection ms
      induction ms generalizing selection with
      | nil => intro hs; exact hs
      | cons m ms ih =>
        intro _
        exact ih (move_selection cmds_len selection m)
          (move_selection_lt cmds_len selection m h1 h2)
    exact hstep 0 moves h1
  · simp only [move_selection, if_pos hc]
    simp
  · simp only [move_selection, if_pos hc]
    simp [u16Max]
    omega

/-- Witness for C10: three commands, a run of five moves. -/
theorem help_selection_in_bounds_witness :
    apply_moves 3 0 [true, true, true, true, false] < 3 ∧
      move_selection 3 0 false = 0 ∧
      move_selection 3 (3 - 1) true = 3 - 1 :=
  help_selection_in_bounds 3 [true, true, true, true, false]
    (by decide) (by decide)

/-! ## The scheduler, versioned cache and notification bus

Modelled from the spec: the job scheduler, generation-stamped staleness
control, versioned cache and notification bus described by the specification
are not among the sources of this snapshot, so they are embedded as a
labelled transition system over the state of one `ResourceKey`, following the
specification text: a submit bumps the key's live generation and creates a
pending job stamped with it only when no job is running; a pending job starts
when the location lock is free (no job running); a completing job whose
captured generation equals the live generation writes the cache and emits one
notification; a completing job whose captured generation is stale is
discarded — no cache write, no notification — and exactly one trailing run is
started with the latest generation. -/

/-- Modelled from the spec: the lifecycle states of a Job. -/
inductive JobPhase where
  | pending
  | running
  | done
  | failed
  | discarded
deriving DecidableEq, Repr

/-- Modelled from the spec: a Job for one `ResourceKey`, carrying the
generation stamped at submit time. -/
structure SchedJob where
  gen : Nat
  phase : JobPhase
deriving DecidableEq, Repr

/-- Modelled from the spec: the per-`ResourceKey` scheduler state — the live
generation, every job created so far, the generation the cache entry was
computed at (`none` while no data), and the number of notification-bus
signals emitted. -/
structure SchedState where
  liveGen : Nat
  jobs : List SchedJob
  cacheGen : Option Nat
  notes : Nat
deriving DecidableEq, Repr

/-- Number of jobs currently in the `running` phase. -/
def countRunning (jobs : List SchedJob) : Nat :=
  jobs.countP (fun j => j.phase == .running)

/-- Modelled from the spec: the transition relation of the scheduler for one
`ResourceKey`. -/
inductive Step : SchedState → SchedState → Prop where
  | submitNew (s : SchedState) (h : countRunning s.jobs = 0) :
      Step s ⟨s.liveGen + 1, s.jobs ++ [⟨s.liveGen + 1, .pending⟩],
        s.cacheGen, s.notes⟩
  | submitCoalesce (s : SchedState) (h : 0 < countRunning s.jobs) :
      Step s ⟨s.liveGen + 1, s.jobs, s.cacheGen, s.notes⟩
  | start (s : SchedState) (l₁ l₂ : List SchedJob) (g : Nat)
      (hjobs : s.jobs = l₁ ++ ⟨g, .pending⟩ :: l₂)
      (h : countRunning s.jobs = 0) :
      Step s ⟨s.liveGen, l₁ ++ ⟨g, .running⟩ :: l₂, s.cacheGen, s.notes⟩
  | completeFresh (s : SchedState) (l₁ l₂ : List SchedJob) (g : Nat)
      (ph : JobPhase) (hjobs : s.jobs = l₁ ++ ⟨g, .running⟩ :: l₂)
      (hgen : g = s.liveGen) (hph : ph = .done ∨ ph = .failed) :
      Step s ⟨s.liveGen, l₁ ++ ⟨g, ph⟩ :: l₂, some g, s.notes + 1⟩
  | completeStale (s : SchedState) (l₁ l₂ : List SchedJob) (g : Nat)
      (hjobs : s.jobs = l₁ ++ ⟨g, .running⟩ :: l₂)
      (hgen : g < s.liveGen) :
      Step s ⟨s.liveGen,
        (l₁ ++ ⟨g, .discarded⟩ :: l₂) ++ [⟨s.liveGen, .running⟩],
        s.cacheGen, s.notes⟩

/-- Modelled from the spec: the scheduler state of a fresh `ResourceKey`. -/
def initState : SchedState := ⟨0, [], none, 0⟩

/-- States reachable from a fresh key by scheduler transitions. -/
def ReachableS (s : SchedState) : Prop :=
  Relation.ReflTransGen Step initState s

theorem countRunning_append (l₁ l₂ : List SchedJob) :
    countRunning (l₁ ++ l₂) = countRunning l₁ + countRunning l₂ := by
  simp [countRunning, List.countP_append]

theorem countRunning_split (l₁ l₂ : List SchedJob) (j : SchedJob) :
    countRunning (l₁ ++ j :: l₂) =
      countRunning l₁ + countRunning [j] + countRunning l₂ := by
  simp [countRunning, List.countP_append, List.countP_cons]
  omega

theorem countRunning_zero_no_running (l : List SchedJob)
    (h : countRunning l = 0) (j : SchedJob) (hmem : j ∈ l) :
    j.phase ≠ .running := by
  intro hp
  rw [countRunning, List.countP_eq_zero] at h
  exact absurd (by simp [hp]) (h j hmem)

theorem getElemOpt_mem {α : Type} {l : List α} {i : Nat} {a : α}
    (h : l[i]? = some a) : a ∈ l := by
  induction l generalizing i with
  | nil => simp at h
  | cons b bs ih =>
    cases i with
    | zero =>
      simp only [List.getElem?_cons_zero, Option.some.injEq] at h
      exact h ▸ List.mem_cons_self b bs
    | succ n =>
      simp only [List.getElem?_cons_succ] at h
      exact List.mem_cons_of_mem b (ih h)

theorem getMid_eq {α : Type} (l₁ l₂ : List α) (j : α) :
    (l₁ ++ j :: l₂)[l₁.length]? = some j := by
  induction l₁ with
  | nil => simp
  | cons a as ih => simpa using ih

theorem countRunning_middle (l₁ l₂ : List SchedJob) (g : Nat)
    (h : countRunning (l₁ ++ ⟨g, .running⟩ :: l₂) ≤ 1) :
    countRunning l₁ = 0 ∧ countRunning l₂ = 0 := by
  rw [countRunning_split] at h
  have h1 : countRunning [(⟨g, .running⟩ : SchedJob)] = 1 := rfl
  omega

theorem running_unique (l₁ l₂ : List SchedJob) (gj g : Nat) (i : Nat)
    (hc1 : countRunning l₁ = 0) (hc2 : countRunning l₂ = 0)
    (hget : (l₁ ++ ⟨gj, .running⟩ :: l₂)[i]? = some ⟨g, .running⟩) :
    i = l₁.length ∧ g = gj := by
  rcases Nat.lt_trichotomy i l₁.length with hi | hi | hi
  · exfalso
    rw [List.getElem?_append_left hi] at hget
    exact countRunning_zero_no_running l₁ hc1 _ (getElemOpt_mem hget) rfl
  · rw [hi, getMid_eq] at hget
    injection hget with hget
    injection hget with h1 _
    exact ⟨hi, h1.symm⟩
  · exfalso
    rw [List.getElem?_append_right (le_of_lt hi)] at hget
    have hd : i - l₁.length = (i - l₁.length - 1) + 1 := by omega
    rw [hd, List.getElem?_cons_succ] at hget
    exact countRunning_zero_no_running l₂ hc2 _ (getElemOpt_mem hget) rfl

/-- The inductive invariant of the scheduler state machine: at most one
running job, all captured generations bounded by the live generation, and
the cached generation bounded by the live generation. -/
def SchedInv (s : SchedState) : Prop :=
  countRunning s.jobs ≤ 1 ∧ (∀ j ∈ s.jobs, j.gen ≤ s.liveGen) ∧
    (∀ g, s.cacheGen = some g → g ≤ s.liveGen)

theorem schedInv_init : SchedInv initState := by
  refine ⟨by simp [initState, countRunning], ?_, ?_⟩
  · intro j hj
    simp [initState] at hj
  · intro g hg
    simp [initState] at hg

theorem schedInv_step (s s2 : SchedState) (h : SchedInv s) (hs : Step s s2) :
    SchedInv s2 := by
  obtain ⟨hcount, hgen, hcache⟩ := h
  cases hs with
  | submitNew hc =>
    refine ⟨?_, ?_, ?_⟩
    · show countRunning (s.jobs ++ [⟨s.liveGen + 1, .pending⟩]) ≤ 1
      rw [countRunning_append]
      have h0 : countRunning [(⟨s.liveGen + 1, .pending⟩ : SchedJob)] = 0 :=
        rfl
      omega
    · intro j hj
      show j.gen ≤ s.liveGen + 1
      rcases List.mem_append.mp hj with hj | hj
      · exact Nat.le_succ_of_le (hgen j hj)
      · rcases List.mem_singleton.mp hj with rfl
        exact Nat.le_refl _
    · intro g hg
      exact Nat.le_succ_of_le (hcache g hg)
  | submitCoalesce hc =>
    refine ⟨hcount, ?_, ?_⟩
    · intro j hj
      exact Nat.le_succ_of_le (hgen j hj)
    · intro g hg
      exact Nat.le_succ_of_le (hcache g hg)
  | start l₁ l₂ g hjobs hc =>
    rw [hjobs, countRunning_split] at hc
    have h0 : countRunning [(⟨g, .pending⟩ : SchedJob)] = 0 := rfl
    refine ⟨?_, ?_, ?_⟩
    · show countRunning (l₁ ++ ⟨g, .running⟩ :: l₂) ≤ 1
      rw [countRunning_split]
      have h1 : countRunning [(⟨g, .running⟩ : SchedJob)] = 1 := rfl
      omega
    · intro j hj
      show j.gen ≤ s.liveGen
      rcases List.mem_append.mp hj with hj | hj
      · exact hgen j (by rw [hjobs]; exact List.mem_append_left _ hj)
      · rcases List.mem_cons.mp hj with rfl | hj
        · exact hgen ⟨g, .pending⟩
            (by rw [hjobs]; exact List.mem_append_right _ (List.mem_cons_self _ _))
        · exact hgen j
            (by rw [hjobs]; exact List.mem_append_right _ (List.mem_cons_of_mem _ hj))
    · exact hcache
  | completeFresh l₁ l₂ g ph hjobs hgeq hph =>
    rw [hjobs, countRunning_split] at hcount
    have h1 : countRunning [(⟨g, .running⟩ : SchedJob)] = 1 := rfl
    refine ⟨?_, ?_, ?_⟩
    · show countRunning (l₁ ++ ⟨g, ph⟩ :: l₂) ≤ 1
      rw [countRunning_split]
      have h2 : countRunning [(⟨g, ph⟩ : SchedJob)] = 0 := by
        rcases hph with rfl | rfl <;> rfl
      omega
    · intro j hj
      show j.gen ≤ s.liveGen
      rcases List.mem_append.mp hj with hj | hj
      · exact hgen j (by rw [hjobs]; exact List.mem_append_left _ hj)
      · rcases List.mem_cons.mp hj with rfl | hj
        · exact Nat.le_of_eq hgeq
        · exact hgen j
            (by rw [hjobs]; exact List.mem_append_right _ (List.mem_cons_of_mem _ hj))
    · intro g2 hg2
      injection hg2 with hg2
      exact Nat.le_of_eq (hg2 ▸ hgeq)
  | completeStale l₁ l₂ g hjobs hlt =>
    rw [hjobs, countRunning_split] at hcount
    have h1 : countRunning [(⟨g, .running⟩ : SchedJob)] = 1 := rfl
    refine ⟨?_, ?_, ?_⟩
    · show countRunning
        ((l₁ ++ ⟨g, .discarded⟩ :: l₂) ++ [⟨s.liveGen, .running⟩]) ≤ 1
      rw [countRunning_append, countRunning_split]
      have h2 : countRunning [(⟨g, .discarded⟩ : SchedJob)] = 0 := rfl
      have h3 : countRunning [(⟨s.liveGen, .running⟩ : SchedJob)] = 1 := rfl
      omega
    · intro j hj
      show j.gen ≤ s.liveGen
      rcases List.mem_append.mp hj with hj | hj
      · rcases List.mem_append.mp hj with hj | hj
        · exact hgen j (by rw [hjobs]; exact List.mem_append_left _ hj)
        · rcases List.mem_cons.mp hj with rfl | hj
          · exact Nat.le_of_lt hlt
          · exact hgen j
              (by rw [hjobs]; exact List.mem_append_right _ (List.mem_cons_of_mem _ hj))
      · rcases List.mem_singleton.mp hj with rfl
        exact Nat.le_refl _
    · exact hcache

theorem schedReachable_inv (s : SchedState) (h : ReachableS s) : SchedInv s := by
  induction h with
  | refl => exact schedInv_init
  | tail hsteps hstep ih => exact schedInv_step _ _ ih hstep

/-- Claim C6: single-flight — in every scheduler state reachable by any
sequence of submits, starts and completions for one `ResourceKey`, at most
one job is in the `running` phase. -/
theorem single_flight (s : SchedState) (h : ReachableS s) :
    countRunning s.jobs ≤ 1 :=
  (schedReachable_inv s h).1

/-- Witness for C6: the state after a submit and a start, holding exactly one
running job. -/
theorem single_flight_witness :
    countRunning (⟨1, [⟨1, .running⟩], none, 0⟩ : SchedState).jobs ≤ 1 :=
  single_flight ⟨1, [⟨1, .running⟩], none, 0⟩
    (Relation.ReflTransGen.tail
      (Relation.ReflTransGen.tail Relation.ReflTransGen.refl
        (Step.submitNew initState rfl))
      (Step.start ⟨1, [⟨1, .pending⟩], none, 0⟩ [] [] 1 rfl rfl))

/-- Staleness suppression across one scheduler transition: a running job
whose captured generation is stale, once the transition takes it out of the
running phase, is discarded with no cache write and no notification, and the
cached generation never decreases. -/
def StaleSuppressed (s s2 : SchedState) : Prop :=
  (∀ (i g : Nat), s.jobs[i]? = some (⟨g, .running⟩ : SchedJob) →
    g < s.liveGen →
    s2.jobs[i]? ≠ some (⟨g, .running⟩ : SchedJob) →
    s2.jobs[i]? = some (⟨g, .discarded⟩ : SchedJob) ∧
      s2.cacheGen = s.cacheGen ∧ s2.notes = s.notes) ∧
  (∀ g, s.cacheGen = some g → ∃ g2, s2.cacheGen = some g2 ∧ g ≤ g2)

/-- Claim C7: every job whose captured generation is less than the key's
live generation at completion time is discarded — no cache write, no
notification-bus signal — and cache updates are monotonic in generation, so
an older generation never overwrites a newer one even when it finishes
later. -/
theorem staleness_suppression (s s2 : SchedState) (hr : ReachableS s)
    (hst : Step s s2) : StaleSuppressed s s2 := by
  obtain ⟨hcount, hgen, hcache⟩ := schedReachable_inv s hr
  unfold StaleSuppressed
  constructor
  · intro i g hget hstale hchanged
    cases hst with
    | submitNew hc =>
      exact absurd rfl
        (countRunning_zero_no_running s.jobs hc _ (getElemOpt_mem hget))
    | submitCoalesce hc =>
      exact absurd hget hchanged
    | start l₁ l₂ gj hjobs hc =>
      exact absurd rfl
        (countRunning_zero_no_running s.jobs hc _ (getElemOpt_mem hget))
    | completeFresh l₁ l₂ gj ph hjobs hgeq hph =>
      obtain ⟨hc1, hc2⟩ := countRunning_middle l₁ l₂ gj (hjobs ▸ hcount)
      obtain ⟨hi, hgg⟩ := running_unique l₁ l₂ gj g i hc1 hc2 (hjobs ▸ hget)
      exact absurd (hgg ▸ hgeq) (Nat.ne_of_lt hstale)
    | completeStale l₁ l₂ gj hjobs hlt =>
      obtain ⟨hc1, hc2⟩ := countRunning_middle l₁ l₂ gj (hjobs ▸ hcount)
      obtain ⟨hi, hgg⟩ := running_unique l₁ l₂ gj g i hc1 hc2 (hjobs ▸ hget)
      subst hgg
      subst hi
      refine ⟨?_, rfl, rfl⟩
      have hlen : l₁.length < (l₁ ++ ⟨g, .discarded⟩ :: l₂).length := by
        simp only [List.length_append, List.length_cons]
        omega
      show ((l₁ ++ ⟨g, .discarded⟩ :: l₂) ++
          [⟨s.liveGen, .running⟩])[l₁.length]? = some ⟨g, .discarded⟩
      rw [List.getElem?_append_left hlen, getMid_eq]
  · intro g hg
    cases hst with
    | submitNew hc => exact ⟨g, hg, Nat.le_refl g⟩
    | submitCoalesce hc => exact ⟨g, hg, Nat.le_refl g⟩
    | start l₁ l₂ gj hjobs hc => exact ⟨g, hg, Nat.le_refl g⟩
    | completeFresh l₁ l₂ gj ph hjobs hgeq hph =>
      exact ⟨gj, rfl, hgeq ▸ hcache g hg⟩
    | completeStale l₁ l₂ gj hjobs hlt => exact ⟨g, hg, Nat.le_refl g⟩

/-- Witness for C7: the submit transition out of the fresh state. -/
theorem staleness_suppression_witness :
    StaleSuppressed initState ⟨1, [⟨1, .pending⟩], none, 0⟩ :=
  staleness_suppression initState ⟨1, [⟨1, .pending⟩], none, 0⟩
    Relation.ReflTransGen.refl (Step.submitNew initState rfl)

end Gitui
